import Mathlib

/-!
Verification development for the projection-matrix retrieval exercise
(`src/exercise.ipynb`).  The notebook learns a square projection matrix `P`
so that `dot(e(snippet), P · e(query))` better reflects relevance, trains it
with Adam over labeled pairs, and evaluates retrieval quality.

Embedding conventions:
* embeddings are vectors `Fin n → ℝ` (floats read as reals);
* the training loop's dynamically-typed Python values (the float `0.0`
  accumulator versus torch tensors) are modelled explicitly where the claims
  depend on them;
* NumPy's global-state shuffle is modelled by explicitly threading a stream
  of raw draws and a position into it.

Bodies that are `TODO` stubs in the notebook (`similarity`,
`similarity_with_projection`, `loss_func`, the `prediction`/`y` lines of the
training loop) are modelled from the spec, and say so in their doc comments.
-/

namespace ProjExercise

open Matrix

/-! ## Similarity functions -/

/-- Modelled from the spec: the body of `similarity` in `src/exercise.ipynb`
is a `TODO` stub; the spec and the notebook text fix it as the dot product of
the two embeddings, `similarity(e_query, e_snippet) = dot(e_query, e_snippet)`. -/
def similarity {n : ℕ} (a b : Fin n → ℝ) : ℝ := a ⬝ᵥ b

/-- Modelled from the spec: the body of `similarity_with_projection` is a
`TODO` stub; the spec fixes it as `dot(e_snippet, P · e_query)`, i.e. the
query embedding is transformed by `P` and then dotted with the snippet
embedding. -/
def similarity_with_projection {n : ℕ} (a b : Fin n → ℝ)
    (P : Matrix (Fin n) (Fin n) ℝ) : ℝ := b ⬝ᵥ (P *ᵥ a)

/-! ## Train/validation split (`src/exercise.ipynb`, split cell)

The notebook computes `split_index = int(0.8 * len(example_pairs))` and takes
`train_pairs = example_pairs[:split_index]`, `val_pairs =
example_pairs[split_index:]` on the already-shuffled list.  `int(...)` on a
nonnegative float truncates, i.e. floors; floats are read as rationals. -/

/-- `int(0.8 * len(l))` of the split cell. -/
def split_index {α : Type} (l : List α) : ℕ := (⌊(8 / 10 : ℚ) * l.length⌋).toNat

/-- `example_pairs[:split_index]`. -/
def train_pairs {α : Type} (l : List α) : List α := l.take (split_index l)

/-- `example_pairs[split_index:]`. -/
def val_pairs {α : Type} (l : List α) : List α := l.drop (split_index l)

/-! ## Retrieval corpus (`src/exercise.ipynb`, `all_snippets` cell) -/

/-- One dataset record: a query string plus its relevant snippets
(mirrors the notebook's `@dataclass Example`). -/
structure Example where
  user_input : String
  snippets : List String

/-- The corpus construction: `for example in dataset: for snippet in
example.snippets: all_snippets.append(snippet)`, modelled as nested folds
that append one element at a time. -/
def all_snippets (dataset : List Example) : List String :=
  dataset.foldl (fun acc ex => ex.snippets.foldl (fun acc2 s => acc2 ++ [s]) acc) []

/-! ## Loss function -/

/-- `softplus x = log(1 + exp x)`. -/
noncomputable def softplus (x : ℝ) : ℝ := Real.log (1 + Real.exp x)

/-- The logistic sigmoid, used to characterise the loss and the gradient. -/
noncomputable def sigmoid (x : ℝ) : ℝ := Real.exp x / (1 + Real.exp x)

/-- Modelled from the spec: the body of `loss_func` in `src/exercise.ipynb`
is a `TODO` stub; the spec fixes it as the logistic (binary cross-entropy
with logits) loss `softplus(prediction) - y * prediction`. -/
noncomputable def loss_func (prediction y : ℝ) : ℝ :=
  softplus prediction - y * prediction

/-! ## The sampling cell: `np.random.shuffle` plus the split

The notebook shuffles `example_pairs` in place with `np.random.shuffle`,
which draws from NumPy's unseeded global Mersenne-Twister state; no seed is
set anywhere in the notebook.  The global state is modelled explicitly as an
infinite stream `draws` of raw integer draws together with the current read
position; a shuffle consumes `n - 1` draws (the Fisher-Yates loop
`for i = n-1, …, 1: j = draw uniform on [0, i]; swap a[i], a[j]`) and
returns the advanced position. -/

/-- Swap positions `i` and `j` of a list (identity when out of range): the
elementary step of the Fisher-Yates shuffle. -/
def swapL {α : Type} (l : List α) (i j : ℕ) : List α :=
  match l.get? i, l.get? j with
  | some x, some y => (l.set i y).set j x
  | _, _ => l

/-- The Fisher-Yates loop of `np.random.shuffle`, with the uniform draw on
`[0, i]` realised as `draws pos % (i + 1)`. -/
def fyAux {α : Type} (draws : ℕ → ℕ) : ℕ → ℕ → List α → List α × ℕ
  | pos, 0, l => (l, pos)
  | pos, i + 1, l => fyAux draws (pos + 1) i (swapL l (i + 1) (draws pos % (i + 2)))

/-- `np.random.shuffle(l)` under global RNG state `(draws, pos)`. -/
def npShuffle {α : Type} (draws : ℕ → ℕ) (pos : ℕ) (l : List α) : List α × ℕ :=
  fyAux draws pos (l.length - 1) l

/-- One run of the sampling cell on an already-constructed pair list:
shuffle under the global RNG, then split.  Returns the ordered
(train, validation) sequences and the advanced RNG position. -/
def samplerRun {α : Type} (draws : ℕ → ℕ) (pos : ℕ) (l : List α) :
    (List α × List α) × ℕ :=
  ((train_pairs (npShuffle draws pos l).1, val_pairs (npShuffle draws pos l).1),
    (npShuffle draws pos l).2)

/-- Running the sampling cell twice in one process: the second run continues
from the global RNG position where the first one stopped, because the
notebook injects no seed. -/
def samplerRunTwice {α : Type} (draws : ℕ → ℕ) (l : List α) :
    (List α × List α) × (List α × List α) :=
  ((samplerRun draws 0 l).1, (samplerRun draws (samplerRun draws 0 l).2 l).1)

/-! ## The training-loop cell, dynamically-typed view

The cell initialises `P`, builds `optimizer = optim.Adam([P], lr=lr)` with
`lr = 0.1` and `num_epochs = 25`, and runs `for epoch in range(num_epochs)`.
Each epoch starts `train_loss = 0.0` — a plain Python float — and adds one
torch scalar per training pair, so on an empty training list `train_loss`
stays a float and `train_loss.backward()` raises `AttributeError`; likewise
`val_loss.item()` in the print statement raises `AttributeError` when the
validation list is empty.  The loop appends the epoch index to `epochs` and
the mean training loss to `losses`; the `types` list and the mean validation
loss are never recorded (the latter is only printed).  This model makes the
accumulator typing, the per-epoch recording, and the (absent) error handling
explicit; the optimizer step is the parameter `step`, and the per-pair loss
tensor value is the parameter `lossv` (the `prediction`/`y` lines feeding
`loss_func` are `TODO` stubs, whose numeric content the real-valued model
below fixes from the spec). -/

/-- A float value carried by a loss scalar: finite (read as a rational) or
the non-finite values NaN and ±Inf. -/
inductive FV where
  | fin (q : ℚ)
  | nan
  | inf
  | ninf
deriving DecidableEq

/-- IEEE-style addition on `FV`: NaN propagates; opposite infinities give
NaN. -/
def FV.add : FV → FV → FV
  | .fin a, .fin b => .fin (a + b)
  | .nan, _ => .nan
  | _, .nan => .nan
  | .inf, .ninf => .nan
  | .ninf, .inf => .nan
  | .inf, _ => .inf
  | _, .inf => .inf
  | .ninf, _ => .ninf
  | _, .ninf => .ninf

/-- Division of a loss total by a pair count, as in the notebook's
`x.item() / len(pairs)` mean computations. -/
def FV.divNat : FV → ℕ → FV
  | .fin a, n => .fin (a / n)
  | .nan, _ => .nan
  | .inf, _ => .inf
  | .ninf, _ => .ninf

/-- Whether a value is non-finite (NaN or ±Inf). -/
def FV.nonFinite : FV → Bool
  | .fin _ => false
  | _ => true

/-- A Python value flowing through the loop's loss accumulators: the literal
float `0.0` the accumulator starts from, or a torch scalar tensor.  `+=` of
a tensor loss turns the float accumulator into a tensor. -/
inductive PyVal where
  | pyfloat (v : FV)
  | tensor (v : FV)
deriving DecidableEq

/-- `acc += loss` where `loss` is a torch scalar. -/
def PyVal.addTensor : PyVal → FV → PyVal
  | .pyfloat a, b => .tensor (FV.add a b)
  | .tensor a, b => .tensor (FV.add a b)

/-- The runtime errors relevant here: the `AttributeError` the loop actually
hits on empty pair lists, plus the spec's `EmptyPairSetError` and
`DivergedTrainingError` for comparison (nothing in the notebook defines or
raises the latter two). -/
inductive Err where
  | attributeError
  | emptyPairSetError
  | divergedTrainingError
deriving DecidableEq

/-- `x.backward()`: defined on tensors; a plain float (an accumulator no
loss was ever added to) has no `backward` attribute. -/
def PyVal.backward : PyVal → Except Err Unit
  | .tensor _ => .ok ()
  | .pyfloat _ => .error .attributeError

/-- `x.item()`: defined on tensors only. -/
def PyVal.item : PyVal → Except Err FV
  | .tensor v => .ok v
  | .pyfloat _ => .error .attributeError

/-- One epoch of the training-loop cell: accumulate the training loss over
all training pairs, `backward()`, one `optimizer.step()`, then with gradient
tracking disabled accumulate the validation loss over the validation pairs
(a pure fold that does not touch the state) and `item()` it for the print.
Returns the new state, the recorded mean training loss, and the printed mean
validation loss. -/
def epochBody {π β : Type} (step : π → π) (lossv : π → β → FV)
    (tps vps : List β) (s : π) : Except Err (π × FV × FV) := do
  let tl := tps.foldl (fun acc p => PyVal.addTensor acc (lossv s p))
    (PyVal.pyfloat (FV.fin 0))
  _ ← tl.backward
  let s' := step s
  let vl := vps.foldl (fun acc p => PyVal.addTensor acc (lossv s' p))
    (PyVal.pyfloat (FV.fin 0))
  let vv ← vl.item
  let tv ← tl.item
  pure (s', FV.divNat tv tps.length, FV.divNat vv vps.length)

/-- The recording lists initialised by `epochs, types, losses = [], [], []`. -/
structure History where
  epochs : List ℕ
  types : List FV
  losses : List FV
deriving DecidableEq

/-- `for epoch in range(num_epochs)`: run the epoch body, append the epoch
index to `epochs` and the mean training loss to `losses`; nothing is ever
appended to `types`, and the mean validation loss is only printed. -/
def runEpochs {π β : Type} (step : π → π) (lossv : π → β → FV)
    (tps vps : List β) : List ℕ → π → History → Except Err (π × History)
  | [], s, h => .ok (s, h)
  | e :: rest, s, h => do
      let r ← epochBody step lossv tps vps s
      runEpochs step lossv tps vps rest r.1
        ⟨h.epochs ++ [e], h.types, h.losses ++ [r.2.1]⟩

/-- `num_epochs = 25` of the training cell. -/
def num_epochs : ℕ := 25

/-- The whole training-loop cell. -/
def trainRun {π β : Type} (step : π → π) (lossv : π → β → FV)
    (tps vps : List β) (P0 : π) : Except Err (π × History) :=
  runEpochs step lossv tps vps (List.range num_epochs) P0 ⟨[], [], []⟩

/-- The FV total a nonempty loss-accumulation fold produces. -/
def lossTotal {π β : Type} (lossv : π → β → FV) (ps : List β) (s : π) : FV :=
  (ps.map (lossv s)).foldl FV.add (FV.fin 0)

/-! ## The training-loop cell, numeric view

`P = torch.randn(dim, dim, requires_grad=True)`, `lr = 0.1`,
`num_epochs = 25`, `optimizer = optim.Adam([P], lr=lr)`; each epoch
accumulates `loss_func(prediction, y)` over all training pairs into
`train_loss`, calls `train_loss.backward()` once, and performs exactly one
`optimizer.step()`.  The `prediction`/`y` lines are `TODO` stubs, modelled
from the spec as `prediction = similarity_with_projection(embed(query),
embed(snippet), P)` and `y = label`.  Autodiff is realised as the
closed-form gradient of the summed loss — proved to be its derivative entry
by entry below — and Adam is spelled out with its PyTorch defaults. -/

/-- `lr = 0.1`. -/
noncomputable def lr : ℝ := 1 / 10

/-- A training pair after embedding: query embedding `a`, snippet embedding
`b`, and the 0/1 label as the real target `y`. -/
structure PairE (n : ℕ) where
  a : Fin n → ℝ
  b : Fin n → ℝ
  y : ℝ

/-- Modelled from the spec: the TODO `prediction` line —
`similarity_with_projection` of the pair's embeddings at the current `P`. -/
noncomputable def predE {n : ℕ} (P : Matrix (Fin n) (Fin n) ℝ) (pr : PairE n) :
    ℝ :=
  similarity_with_projection pr.a pr.b P

/-- The per-pair training loss at `P`. -/
noncomputable def lossAt {n : ℕ} (P : Matrix (Fin n) (Fin n) ℝ) (pr : PairE n) :
    ℝ :=
  loss_func (predE P pr) pr.y

/-- `train_loss = 0.0; for pair in train_pairs: train_loss += loss`. -/
noncomputable def lossSum {n : ℕ} (tps : List (PairE n))
    (P : Matrix (Fin n) (Fin n) ℝ) : ℝ :=
  tps.foldl (fun acc pr => acc + lossAt P pr) 0

/-- The gradient of the per-pair loss with respect to `P`:
`(sigmoid(pred) - y) · b_i · a_j`. -/
noncomputable def gradAt {n : ℕ} (P : Matrix (Fin n) (Fin n) ℝ) (pr : PairE n) :
    Matrix (Fin n) (Fin n) ℝ :=
  fun i j => (sigmoid (predE P pr) - pr.y) * (pr.b i * pr.a j)

/-- The gradient of the summed training loss: what `train_loss.backward()`
deposits into `P.grad`. -/
noncomputable def gradTotal {n : ℕ} (tps : List (PairE n))
    (P : Matrix (Fin n) (Fin n) ℝ) : Matrix (Fin n) (Fin n) ℝ :=
  tps.foldl (fun acc pr => acc + gradAt P pr) 0

/-- Adam's per-parameter state: first and second moment estimates and the
step count, zero-initialised by `optim.Adam([P], lr=lr)`. -/
structure AdamState (n : ℕ) where
  m : Matrix (Fin n) (Fin n) ℝ
  v : Matrix (Fin n) (Fin n) ℝ
  t : ℕ

/-- Fresh Adam state. -/
def adamInit (n : ℕ) : AdamState n := ⟨0, 0, 0⟩

/-- PyTorch Adam default `beta1`. -/
noncomputable def adamBeta1 : ℝ := 9 / 10

/-- PyTorch Adam default `beta2`. -/
noncomputable def adamBeta2 : ℝ := 999 / 1000

/-- PyTorch Adam default `eps`. -/
noncomputable def adamEps : ℝ := 1 / 10 ^ 8

/-- One `optimizer.step()` of Adam (PyTorch defaults) on parameter `θ` with
gradient `g`: first-order (uses only `g`), adaptive (per-entry step size
scaled by the bias-corrected second-moment estimate). -/
noncomputable def adamStep {n : ℕ} (st : AdamState n)
    (θ g : Matrix (Fin n) (Fin n) ℝ) :
    Matrix (Fin n) (Fin n) ℝ × AdamState n :=
  let t' := st.t + 1
  let m' : Matrix (Fin n) (Fin n) ℝ :=
    fun i j => adamBeta1 * st.m i j + (1 - adamBeta1) * g i j
  let v' : Matrix (Fin n) (Fin n) ℝ :=
    fun i j => adamBeta2 * st.v i j + (1 - adamBeta2) * g i j ^ 2
  (fun i j => θ i j - lr * (m' i j / (1 - adamBeta1 ^ t'))
      / (Real.sqrt (v' i j / (1 - adamBeta2 ^ t')) + adamEps),
    ⟨m', v', t'⟩)

/-- One epoch in the numeric view: the gradient of the loss summed over all
training pairs, then exactly one Adam update. -/
noncomputable def epochStep {n : ℕ} (tps : List (PairE n))
    (s : Matrix (Fin n) (Fin n) ℝ × AdamState n) :
    Matrix (Fin n) (Fin n) ℝ × AdamState n :=
  adamStep s.2 s.1 (gradTotal tps s.1)

/-- `for epoch in range(num_epochs)`, numeric view. -/
noncomputable def trainLoopR {n : ℕ} (tps : List (PairE n)) :
    ℕ → Matrix (Fin n) (Fin n) ℝ × AdamState n
      → Matrix (Fin n) (Fin n) ℝ × AdamState n
  | 0, s => s
  | k + 1, s => trainLoopR tps k (epochStep tps s)

/-- The whole cell in the numeric view: `num_epochs` epochs from the initial
matrix `P0` and fresh Adam state. -/
noncomputable def trainRunR {n : ℕ} (tps : List (PairE n))
    (P0 : Matrix (Fin n) (Fin n) ℝ) :
    Matrix (Fin n) (Fin n) ℝ × AdamState n :=
  trainLoopR tps num_epochs (P0, adamInit n)

/-- Replace the single entry `(i, j)` of a matrix, to state partial
derivatives in that entry. -/
def updEntry {n : ℕ} (P : Matrix (Fin n) (Fin n) ℝ) (i j : Fin n) (x : ℝ) :
    Matrix (Fin n) (Fin n) ℝ :=
  fun i' j' => if i' = i ∧ j' = j then x else P i' j'

/-- Decidable equality of run results, to evaluate concrete runs. -/
instance exceptDecEq {ε α : Type} [DecidableEq ε] [DecidableEq α] :
    DecidableEq (Except ε α) := fun x y =>
  match x, y with
  | .ok a, .ok b =>
      if h : a = b then .isTrue (by rw [h])
      else .isFalse (fun hc => h (by injection hc))
  | .error e, .error f =>
      if h : e = f then .isTrue (by rw [h])
      else .isFalse (fun hc => h (by injection hc))
  | .ok _, .error _ => .isFalse (fun hc => Except.noConfusion hc)
  | .error _, .ok _ => .isFalse (fun hc => Except.noConfusion hc)

/-! ## Helper lemmas -/

theorem foldl_append_singleton {α : Type} (l : List α) (acc : List α) :
    l.foldl (fun acc2 s => acc2 ++ [s]) acc = acc ++ l := by
  induction l generalizing acc with
  | nil => simp
  | cons x xs ih => simp [List.foldl_cons, ih]

theorem foldl_append_snippets (dataset : List Example) (acc : List String) :
    dataset.foldl (fun a ex => ex.snippets.foldl (fun a2 s => a2 ++ [s]) a) acc
      = acc ++ (dataset.map Example.snippets).flatten := by
  induction dataset generalizing acc with
  | nil => simp
  | cons ex rest ih =>
      simp only [List.foldl_cons]
      rw [ih, foldl_append_singleton]
      simp [List.append_assoc]

theorem split_index_eq {α : Type} (l : List α) :
    split_index l = 8 * l.length / 10 := by
  unfold split_index
  have h : (8 / 10 : ℚ) * l.length = ((8 * l.length : ℕ) : ℚ) / ((10 : ℕ) : ℚ) := by
    push_cast; ring
  rw [h, Rat.floor_natCast_div_natCast]
  omega

theorem split_index_le_length {α : Type} (l : List α) :
    split_index l ≤ l.length := by
  unfold split_index
  have h1 : (8 / 10 : ℚ) * l.length ≤ (l.length : ℚ) := by
    nlinarith [Nat.cast_nonneg (α := ℚ) l.length]
  have h2 : ⌊(8 / 10 : ℚ) * l.length⌋ ≤ (l.length : ℤ) := by
    have hf : (⌊(8 / 10 : ℚ) * l.length⌋ : ℚ) ≤ (l.length : ℚ) :=
      le_trans (Int.floor_le _) h1
    exact_mod_cast hf
  exact Int.toNat_le.mpr h2

/-! ## Claim theorems -/

/-- C1: with `P` the identity matrix, `similarity_with_projection` coincides
with `similarity` on every pair of embeddings of the shared dimension. -/
theorem similarity_with_projection_identity {n : ℕ} (a b : Fin n → ℝ) :
    similarity_with_projection a b 1 = similarity a b := by
  simp [similarity_with_projection, similarity, Matrix.one_mulVec,
    dotProduct_comm]

/-- C3: the split cell produces a training prefix and validation suffix of
the shuffled list, their lengths sum to the full length, the training length
is `⌊0.8 · len⌋`, and the 0.8 train fraction holds up to rounding. -/
theorem split_train_val_spec {α : Type} (l : List α) :
    train_pairs l ++ val_pairs l = l ∧
    (train_pairs l).length + (val_pairs l).length = l.length ∧
    (train_pairs l).length = split_index l ∧
    ((train_pairs l).length : ℚ) ≤ (8 / 10 : ℚ) * l.length ∧
    (8 / 10 : ℚ) * l.length < (train_pairs l).length + 1 := by
  have hle := split_index_le_length l
  have hlen : (train_pairs l).length = split_index l := by
    simp [train_pairs, List.length_take, Nat.min_eq_left hle]
  have h0 : (0 : ℚ) ≤ (8 / 10 : ℚ) * l.length := by positivity
  have hfl0 : (0 : ℤ) ≤ ⌊(8 / 10 : ℚ) * l.length⌋ := Int.floor_nonneg.mpr h0
  have hcast : ((split_index l : ℕ) : ℚ) = (⌊(8 / 10 : ℚ) * l.length⌋ : ℚ) := by
    unfold split_index
    exact_mod_cast congrArg (fun z : ℤ => (z : ℚ)) (Int.toNat_of_nonneg hfl0)
  refine ⟨List.take_append_drop _ l, ?_, hlen, ?_, ?_⟩
  · simp only [train_pairs, val_pairs, List.length_take, List.length_drop]
    omega
  · rw [hlen, hcast]
    exact Int.floor_le _
  · rw [hlen, hcast]
    exact Int.lt_floor_add_one _

/-- C10: `all_snippets` is the order-preserving concatenation of every
Example's snippet list, one corpus entry per snippet occurrence, with no
deduplication: the multiplicity of any string in the corpus is the sum of
its multiplicities across the Examples. -/
theorem all_snippets_concat (dataset : List Example) :
    all_snippets dataset = (dataset.map Example.snippets).flatten ∧
    ∀ s : String, (all_snippets dataset).count s
      = ((dataset.map fun ex => ex.snippets.count s).sum) := by
  have hflat : all_snippets dataset = (dataset.map Example.snippets).flatten := by
    unfold all_snippets
    simpa using foldl_append_snippets dataset []
  have hcount : ∀ (ds : List Example) (s : String),
      ((ds.map Example.snippets).flatten).count s
        = (ds.map fun ex => ex.snippets.count s).sum := by
    intro ds s
    induction ds with
    | nil => simp
    | cons ex rest ih => simp [List.flatten_cons, List.count_append, ih]
  exact ⟨hflat, fun s => by rw [hflat]; exact hcount dataset s⟩

theorem foldl_addTensor_tensor {β : Type} (f : β → FV) :
    ∀ (l : List β) (a : FV),
      l.foldl (fun acc p => PyVal.addTensor acc (f p)) (PyVal.tensor a)
        = PyVal.tensor (l.foldl (fun acc p => FV.add acc (f p)) a) := by
  intro l
  induction l with
  | nil => intro a; rfl
  | cons x xs ih =>
      intro a
      rw [List.foldl_cons, List.foldl_cons]
      exact ih (FV.add a (f x))

theorem foldl_addTensor_of_ne_nil {π β : Type} (lossv : π → β → FV)
    (ps : List β) (s : π) (hp : ps ≠ []) :
    ps.foldl (fun acc p => PyVal.addTensor acc (lossv s p))
        (PyVal.pyfloat (FV.fin 0))
      = PyVal.tensor (lossTotal lossv ps s) := by
  cases ps with
  | nil => exact absurd rfl hp
  | cons x xs =>
      rw [lossTotal, List.map_cons, List.foldl_cons, List.foldl_cons,
        List.foldl_map]
      exact foldl_addTensor_tensor (lossv s) xs (FV.add (FV.fin 0) (lossv s x))

theorem epochBody_ok {π β : Type} (step : π → π) (lossv : π → β → FV)
    (tps vps : List β) (s : π) (htp : tps ≠ []) (hvp : vps ≠ []) :
    epochBody step lossv tps vps s
      = .ok (step s, FV.divNat (lossTotal lossv tps s) tps.length,
          FV.divNat (lossTotal lossv vps (step s)) vps.length) := by
  have h1 := foldl_addTensor_of_ne_nil lossv tps s htp
  have h2 := foldl_addTensor_of_ne_nil lossv vps (step s) hvp
  simp only [epochBody, h1, h2, PyVal.backward, PyVal.item, bind, Except.bind,
    pure, Except.pure]

theorem epochBody_empty_train {π β : Type} (step : π → π) (lossv : π → β → FV)
    (vps : List β) (s : π) :
    epochBody step lossv [] vps s = .error Err.attributeError := by
  simp only [epochBody, List.foldl_nil, PyVal.backward, bind, Except.bind]

theorem epochBody_empty_val {π β : Type} (step : π → π) (lossv : π → β → FV)
    (tps : List β) (s : π) (htp : tps ≠ []) :
    epochBody step lossv tps [] s = .error Err.attributeError := by
  have h1 := foldl_addTensor_of_ne_nil lossv tps s htp
  simp only [epochBody, h1, List.foldl_nil, PyVal.backward, PyVal.item, bind,
    Except.bind]

theorem runEpochs_ok {π β : Type} (step : π → π) (lossv : π → β → FV)
    (tps vps : List β) (htp : tps ≠ []) (hvp : vps ≠ []) :
    ∀ (es : List ℕ) (s : π) (h : History),
      runEpochs step lossv tps vps es s h
        = .ok (step^[es.length] s,
            ⟨h.epochs ++ es, h.types,
             h.losses ++ (List.range es.length).map
               (fun i => FV.divNat (lossTotal lossv tps (step^[i] s))
                 tps.length)⟩) := by
  intro es
  induction es with
  | nil => intro s h; simp [runEpochs]
  | cons e rest ih =>
      intro s h
      rw [runEpochs]
      have hb := epochBody_ok step lossv tps vps s htp hvp
      simp only [hb, bind, Except.bind]
      rw [ih]
      simp [Function.iterate_succ_apply, List.range_succ_eq_map, List.map_map,
        Function.comp, List.length_cons]

theorem runEpochs_error_empty {π β : Type} (step : π → π)
    (lossv : π → β → FV) (tps vps : List β) (s : π) (h : History)
    (e : ℕ) (rest : List ℕ) (hor : tps = [] ∨ vps = []) :
    runEpochs step lossv tps vps (e :: rest) s h
      = .error Err.attributeError := by
  rw [runEpochs]
  rcases hor with h1 | h2
  · subst h1
    simp only [epochBody_empty_train, bind, Except.bind]
  · subst h2
    by_cases htp : tps = []
    · subst htp
      simp only [epochBody_empty_train, bind, Except.bind]
    · simp only [epochBody_empty_val step lossv tps s htp, bind, Except.bind]

theorem fyAux_congr {α : Type} (d1 d2 : ℕ → ℕ) :
    ∀ (i pos : ℕ) (l : List α), (∀ k < i, d1 (pos + k) = d2 (pos + k)) →
      fyAux d1 pos i l = fyAux d2 pos i l := by
  intro i
  induction i with
  | zero => intro pos l _; rfl
  | succ i ih =>
      intro pos l h
      have h0 : d1 pos = d2 pos := by simpa using h 0 (Nat.succ_pos i)
      simp only [fyAux, h0]
      exact ih (pos + 1) _ fun k hk => by
        have := h (k + 1) (Nat.succ_lt_succ hk)
        simpa [Nat.add_assoc, Nat.add_comm 1 k] using this

/-- C4: the training loss is the logistic (binary cross-entropy with logits)
loss: it equals `softplus p - y * p`, which for target 1 is
`-log(sigmoid p)` and for target 0 is `-log(1 - sigmoid p)`. -/
theorem loss_func_is_logistic (p y : ℝ) :
    loss_func p y = softplus p - y * p ∧
    loss_func p 1 = -Real.log (sigmoid p) ∧
    loss_func p 0 = -Real.log (1 - sigmoid p) := by
  have hpos : (0 : ℝ) < 1 + Real.exp p := by positivity
  have hne : (1 : ℝ) + Real.exp p ≠ 0 := ne_of_gt hpos
  refine ⟨rfl, ?_, ?_⟩
  · have : Real.log (sigmoid p) = p - Real.log (1 + Real.exp p) := by
      rw [sigmoid, Real.log_div (Real.exp_ne_zero p) hne, Real.log_exp]
    rw [loss_func, softplus, this]
    ring
  · have h1 : 1 - sigmoid p = (1 + Real.exp p)⁻¹ := by
      rw [sigmoid]
      field_simp
    rw [loss_func, softplus, h1, Real.log_inv]
    ring

/-- C5 counterexample: there is no injected seed — `np.random.shuffle` draws
from the global RNG stream — so two successive runs of the sampling cell on
the same pair list continue the same stream and produce different ordered
train/validation sequences. -/
theorem sampler_two_runs_differ :
    (samplerRunTwice (fun k => k) [0, 1]).1
      ≠ (samplerRunTwice (fun k => k) [0, 1]).2 := by
  simp only [samplerRunTwice, samplerRun, npShuffle, fyAux, swapL, train_pairs,
    val_pairs, split_index_eq]
  decide

/-- C5 amended: the pair sequence is a deterministic function of the pair
list and the global RNG state at call time: two runs whose draw streams
agree on the consumed window (the `n - 1` Fisher-Yates draws) produce
identical ordered train/validation sequences.  The code, however, uses the
unseeded global NumPy RNG rather than an injected seeded source, so
successive runs in one process start from different states. -/
theorem sampler_deterministic_given_state {α : Type} (d1 d2 : ℕ → ℕ)
    (pos : ℕ) (l : List α)
    (h : ∀ k < l.length - 1, d1 (pos + k) = d2 (pos + k)) :
    samplerRun d1 pos l = samplerRun d2 pos l := by
  have : npShuffle d1 pos l = npShuffle d2 pos l :=
    fyAux_congr d1 d2 (l.length - 1) pos l h
  simp [samplerRun, this]

/-- Witness for the amended C5 theorem at a concrete stream pair that agree
on the consumed window. -/
theorem sampler_deterministic_given_state_witness :
    (∀ k < ([0, 1] : List ℕ).length - 1,
      (fun k => k) (0 + k) = (fun k => if k < 1 then k else 5) (0 + k)) ∧
    samplerRun (fun k => k) 0 [0, 1]
      = samplerRun (fun k => if k < 1 then k else 5) 0 [0, 1] :=
  ⟨by decide, sampler_deterministic_given_state _ _ _ _ (by decide)⟩

theorem trainLoopR_eq_iterate {n : ℕ} (tps : List (PairE n)) :
    ∀ (k : ℕ) (s : Matrix (Fin n) (Fin n) ℝ × AdamState n),
      trainLoopR tps k s = (epochStep tps)^[k] s := by
  intro k
  induction k with
  | zero => intro s; rfl
  | succ k ih =>
      intro s
      rw [trainLoopR, ih, Function.iterate_succ_apply]

theorem foldl_add_eq_sum {M β : Type} [AddCommMonoid M] (f : β → M) :
    ∀ (l : List β) (c : M),
      l.foldl (fun acc x => acc + f x) c = c + (l.map f).sum := by
  intro l
  induction l with
  | nil => intro c; simp
  | cons x xs ih => intro c; simp [ih, add_assoc]

theorem list_sum_matrix_apply {n : ℕ} (l : List (Matrix (Fin n) (Fin n) ℝ))
    (i j : Fin n) : l.sum i j = (l.map fun M => M i j).sum := by
  induction l with
  | nil => rfl
  | cons M rest ih => simp [Matrix.add_apply, ih]

theorem predE_entry_sum {n : ℕ} (M : Matrix (Fin n) (Fin n) ℝ) (pr : PairE n) :
    predE M pr = ∑ p : Fin n × Fin n, pr.b p.1 * (M p.1 p.2 * pr.a p.2) := by
  rw [Fintype.sum_prod_type]
  simp [predE, similarity_with_projection, Matrix.mulVec, dotProduct,
    Finset.mul_sum]

theorem predE_updEntry {n : ℕ} (P : Matrix (Fin n) (Fin n) ℝ) (i j : Fin n)
    (x : ℝ) (pr : PairE n) :
    predE (updEntry P i j x) pr
      = predE P pr + (x - P i j) * (pr.b i * pr.a j) := by
  rw [predE_entry_sum, predE_entry_sum]
  have hterm : ∀ p : Fin n × Fin n,
      pr.b p.1 * (updEntry P i j x p.1 p.2 * pr.a p.2)
        = pr.b p.1 * (P p.1 p.2 * pr.a p.2)
          + (if p = (i, j) then (x - P i j) * (pr.b i * pr.a j) else 0) := by
    intro p
    by_cases hp : p = (i, j)
    · subst hp
      simp [updEntry]
      ring
    · have hq : ¬(p.1 = i ∧ p.2 = j) := by
        intro hc
        apply hp
        cases p
        simp only at hc
        simp [hc.1, hc.2]
      simp [updEntry, hq, hp]
  rw [Finset.sum_congr rfl fun p _ => hterm p, Finset.sum_add_distrib]
  simp

theorem hasDerivAt_softplus (u : ℝ) : HasDerivAt softplus (sigmoid u) u := by
  have h2 : (1 : ℝ) + Real.exp u ≠ 0 := by positivity
  have h3 := ((Real.hasDerivAt_exp u).const_add 1).log h2
  show HasDerivAt (fun x => Real.log (1 + Real.exp x)) (sigmoid u) u
  simpa [sigmoid] using h3

theorem hasDerivAt_lossAt_entry {n : ℕ} (P : Matrix (Fin n) (Fin n) ℝ)
    (i j : Fin n) (pr : PairE n) :
    HasDerivAt (fun x => lossAt (updEntry P i j x) pr)
      (gradAt P pr i j) (P i j) := by
  have hinner : HasDerivAt
      (fun x : ℝ => predE P pr + (x - P i j) * (pr.b i * pr.a j))
      (pr.b i * pr.a j) (P i j) := by
    have h := (((hasDerivAt_id (P i j)).sub_const (P i j)).mul_const
      (pr.b i * pr.a j)).const_add (predE P pr)
    simpa using h
  have houter : HasDerivAt (fun u : ℝ => softplus u - pr.y * u)
      (sigmoid (predE P pr) - pr.y) (predE P pr) := by
    have h := (hasDerivAt_softplus (predE P pr)).sub
      (HasDerivAt.const_mul pr.y (hasDerivAt_id (predE P pr)))
    simpa using h
  have hcomp : HasDerivAt ((fun u : ℝ => softplus u - pr.y * u)
      ∘ (fun x : ℝ => predE P pr + (x - P i j) * (pr.b i * pr.a j)))
      ((sigmoid (predE P pr) - pr.y) * (pr.b i * pr.a j)) (P i j) :=
    HasDerivAt.comp_of_eq (P i j) houter hinner (by simp)
  have hfun : (fun x => lossAt (updEntry P i j x) pr)
      = (fun u : ℝ => softplus u - pr.y * u)
        ∘ (fun x : ℝ => predE P pr + (x - P i j) * (pr.b i * pr.a j)) := by
    funext x
    simp [lossAt, loss_func, Function.comp, predE_updEntry]
  rw [hfun]
  exact hcomp

theorem hasDerivAt_list_sum {β : Type} (l : List β) (f : β → ℝ → ℝ)
    (f' : β → ℝ) (x : ℝ) (h : ∀ b ∈ l, HasDerivAt (fun u => f b u) (f' b) x) :
    HasDerivAt (fun u => (l.map fun b => f b u).sum) ((l.map f').sum) x := by
  induction l with
  | nil => simpa using hasDerivAt_const x (0 : ℝ)
  | cons b rest ih =>
      have hb := h b (List.mem_cons_self b rest)
      have hrest := ih fun c hc => h c (List.mem_cons_of_mem b hc)
      have hsum := hb.add hrest
      simpa using hsum

theorem hasDerivAt_lossSum_entry {n : ℕ} (tps : List (PairE n))
    (P : Matrix (Fin n) (Fin n) ℝ) (i j : Fin n) :
    HasDerivAt (fun x => lossSum tps (updEntry P i j x))
      (gradTotal tps P i j) (P i j) := by
  have h1 : (fun x => lossSum tps (updEntry P i j x))
      = fun x => (tps.map fun pr => lossAt (updEntry P i j x) pr).sum := by
    funext x
    rw [lossSum, foldl_add_eq_sum, zero_add]
  have h2 : gradTotal tps P i j = (tps.map fun pr => gradAt P pr i j).sum := by
    have he := foldl_add_eq_sum (gradAt P) tps (0 : Matrix (Fin n) (Fin n) ℝ)
    rw [gradTotal, he, zero_add, list_sum_matrix_apply, List.map_map]
    rfl
  rw [h1, h2]
  exact hasDerivAt_list_sum tps (fun pr x => lossAt (updEntry P i j x) pr)
    (fun pr => gradAt P pr i j) (P i j)
    (fun pr _ => hasDerivAt_lossAt_entry P i j pr)

/-- C2: the training cell uses `num_epochs = 25` and `lr = 0.1`; the run is
exactly `num_epochs` iterations of the epoch step, each of which performs
exactly one Adam update (a first-order adaptive-gradient step, PyTorch
defaults) of `P`; the accumulated epoch loss is the sum of `loss_func` over
all training pairs; and the gradient the update consumes is, entry by entry,
the derivative of that summed loss — the update minimises the summed
loss. -/
theorem training_loop_spec {n : ℕ} (tps : List (PairE n))
    (P0 : Matrix (Fin n) (Fin n) ℝ) :
    num_epochs = 25 ∧ lr = 1 / 10 ∧
    trainRunR tps P0 = (epochStep tps)^[num_epochs] (P0, adamInit n) ∧
    (∀ s : Matrix (Fin n) (Fin n) ℝ × AdamState n,
      epochStep tps s = adamStep s.2 s.1 (gradTotal tps s.1)) ∧
    (∀ P : Matrix (Fin n) (Fin n) ℝ,
      lossSum tps P = (tps.map fun pr => loss_func (predE P pr) pr.y).sum) ∧
    (∀ (P : Matrix (Fin n) (Fin n) ℝ) (i j : Fin n),
      HasDerivAt (fun x => lossSum tps (updEntry P i j x))
        (gradTotal tps P i j) (P i j)) := by
  refine ⟨rfl, rfl, trainLoopR_eq_iterate tps num_epochs (P0, adamInit n),
    fun s => rfl, fun P => ?_, fun P i j => hasDerivAt_lossSum_entry tps P i j⟩
  rw [lossSum, foldl_add_eq_sum, zero_add]
  rfl

/-- C6 counterexample: on a concrete run (one training pair of mean loss 1,
one validation pair of mean loss 2) the recorded history is only the epoch
indices and the mean training losses; the mean validation loss (2) appears
nowhere in the recorded lists (`types` stays empty), so no epoch has a
(epoch index, mean train loss, mean val loss) triple recorded. -/
theorem history_lacks_val_loss :
    trainRun (fun u : Unit => u)
        (fun _ p => if p = 1 then FV.fin 1 else FV.fin 2) [1] [2] ()
      = .ok ((), ⟨List.range num_epochs, [],
          List.replicate num_epochs (FV.fin 1)⟩) ∧
    FV.fin 2 ∉ List.replicate num_epochs (FV.fin 1) ∧
    FV.fin 2 ∉ ([] : List FV) := by
  refine ⟨?_, by decide, by decide⟩
  have h := runEpochs_ok (fun u : Unit => u)
      (fun _ p => if p = 1 then FV.fin 1 else FV.fin 2) [1] [2]
      (by decide) (by decide) (List.range num_epochs) () ⟨[], [], []⟩
  rw [trainRun, h]
  have hf : (fun i : ℕ => FV.divNat
        (lossTotal (fun _ p => if p = 1 then FV.fin 1 else FV.fin 2) [1]
          ((fun u : Unit => u)^[i] ())) ([1] : List ℕ).length)
      = fun _ : ℕ => FV.fin 1 := by
    funext i
    show FV.fin ((0 + 1) / ((1 : ℕ) : ℚ)) = FV.fin 1
    norm_num
  rw [List.length_range, hf, List.map_const', List.length_range]
  rfl

/-- C6 amended: after training, `epochs` holds every epoch index `0, …,
num_epochs - 1` and `losses` holds the corresponding mean training losses;
the mean validation loss is printed but not recorded, and `types` stays
empty. -/
theorem history_records_epoch_and_train_mean {π β : Type} (step : π → π)
    (lossv : π → β → FV) (tps vps : List β) (P0 : π)
    (htp : tps ≠ []) (hvp : vps ≠ []) :
    trainRun step lossv tps vps P0
      = .ok (step^[num_epochs] P0,
          ⟨List.range num_epochs, [],
           (List.range num_epochs).map
             (fun i => FV.divNat (lossTotal lossv tps (step^[i] P0))
               tps.length)⟩) := by
  rw [trainRun, runEpochs_ok step lossv tps vps htp hvp]
  simp

/-- Witness for the amended C6 theorem on a concrete run. -/
theorem history_records_epoch_and_train_mean_witness :
    (([1] : List ℕ) ≠ [] ∧ ([2] : List ℕ) ≠ []) ∧
    trainRun (fun u : Unit => u) (fun _ _ => FV.fin 1 : Unit → ℕ → FV)
        [1] [2] ()
      = .ok ((fun u : Unit => u)^[num_epochs] (),
          ⟨List.range num_epochs, [],
           (List.range num_epochs).map
             (fun i => FV.divNat
               (lossTotal (fun _ _ => FV.fin 1 : Unit → ℕ → FV) [1]
                 ((fun u : Unit => u)^[i] ())) ([1] : List ℕ).length)⟩) :=
  ⟨⟨by decide, by decide⟩,
    history_records_epoch_and_train_mean _ _ _ _ _ (by decide) (by decide)⟩

/-- C7 counterexample: with an empty training pair list the loop fails with
`AttributeError` (the accumulator is still the float `0.0` when
`.backward()` is called), not with `EmptyPairSetError` — no such error
exists anywhere in the notebook. -/
theorem empty_train_not_emptyPairSetError :
    trainRun (fun u : Unit => u) (fun _ _ => FV.fin 1 : Unit → ℕ → FV)
        [] [2] ()
      = .error Err.attributeError ∧
    Err.attributeError ≠ Err.emptyPairSetError := by decide

/-- C7 amended: an empty training pair set or an empty validation pair set
makes the loop fail — but with Python's `AttributeError` (`float` has no
`backward`/`item`), not with `EmptyPairSetError`. -/
theorem empty_pairs_raise_attribute_error {π β : Type} (step : π → π)
    (lossv : π → β → FV) (tps vps : List β) (P0 : π)
    (hor : tps = [] ∨ vps = []) :
    trainRun step lossv tps vps P0 = .error Err.attributeError := by
  rw [trainRun]
  have h25 : List.range num_epochs = 0 :: List.drop 1 (List.range num_epochs) := by
    decide
  rw [h25]
  exact runEpochs_error_empty _ _ _ _ _ _ _ _ hor

/-- Witness for the amended C7 theorem: the empty training list. -/
theorem empty_pairs_raise_attribute_error_witness :
    (([] : List ℕ) = [] ∨ ([2] : List ℕ) = []) ∧
    trainRun (fun u : Unit => u) (fun _ _ => FV.fin 1 : Unit → ℕ → FV)
        [] [2] ()
      = .error Err.attributeError :=
  ⟨Or.inl rfl, empty_pairs_raise_attribute_error _ _ _ _ _ (Or.inl rfl)⟩

/-- C8 counterexample: with a loss that is NaN from epoch 0 on, the concrete
run still completes all 25 epochs, records NaN means, and returns normally —
it is not aborted with `DivergedTrainingError`, and training continues past
every epoch whose loss is non-finite. -/
theorem nonfinite_loss_training_continues :
    (FV.nan).nonFinite = true ∧
    trainRun (fun u : Unit => u) (fun _ _ => FV.nan : Unit → ℕ → FV)
        [1] [2] ()
      = .ok ((), ⟨List.range num_epochs, [],
          List.replicate num_epochs FV.nan⟩) := by decide

/-- C8 amended: the loop contains no finiteness check at all: for every loss
function — including ones whose values are NaN or ±Inf at every epoch — a
run on nonempty pair sets never returns any error (in particular never
`DivergedTrainingError`) and always completes all `num_epochs` epochs. -/
theorem training_has_no_divergence_check {π β : Type} (step : π → π)
    (lossv : π → β → FV) (tps vps : List β) (P0 : π)
    (htp : tps ≠ []) (hvp : vps ≠ []) :
    (∀ er : Err, trainRun step lossv tps vps P0 ≠ .error er) ∧
    ∃ hist : History, trainRun step lossv tps vps P0
        = .ok (step^[num_epochs] P0, hist) ∧
      hist.epochs.length = num_epochs := by
  have h : trainRun step lossv tps vps P0
      = .ok (step^[num_epochs] P0,
          ⟨List.range num_epochs, [],
           (List.range num_epochs).map
             (fun i => FV.divNat (lossTotal lossv tps (step^[i] P0))
               tps.length)⟩) := by
    rw [trainRun, runEpochs_ok step lossv tps vps htp hvp]
    simp
  refine ⟨fun er hc => ?_, ⟨_, h, ?_⟩⟩
  · rw [h] at hc
    exact Except.noConfusion hc
  · simp

/-- Witness for the amended C8 theorem at the all-NaN loss. -/
theorem training_has_no_divergence_check_witness :
    (([1] : List ℕ) ≠ [] ∧ ([2] : List ℕ) ≠ []) ∧
    ((∀ er : Err, trainRun (fun u : Unit => u)
        (fun _ _ => FV.nan : Unit → ℕ → FV) [1] [2] () ≠ .error er) ∧
     ∃ hist : History, trainRun (fun u : Unit => u)
          (fun _ _ => FV.nan : Unit → ℕ → FV) [1] [2] ()
        = .ok ((fun u : Unit => u)^[num_epochs] (), hist) ∧
      hist.epochs.length = num_epochs) :=
  ⟨⟨by decide, by decide⟩,
    training_has_no_divergence_check _ _ _ _ _ (by decide) (by decide)⟩

/-- C9: the validation pass performs no parameter update: a successful epoch
returns exactly `step s` — the single optimizer update, made before the
validation fold runs — and the returned state is unchanged if the validation
pair set is replaced by any other nonempty one.  The validation fold (run
under `torch.no_grad()` in the source) is a pure computation producing only
the printed scalar. -/
theorem val_pass_no_parameter_update {π β : Type} (step : π → π)
    (lossv : π → β → FV) (tps vps vps' : List β) (s : π)
    (htp : tps ≠ []) (hvp : vps ≠ []) (hvp' : vps' ≠ []) :
    epochBody step lossv tps vps s
      = .ok (step s, FV.divNat (lossTotal lossv tps s) tps.length,
          FV.divNat (lossTotal lossv vps (step s)) vps.length) ∧
    (epochBody step lossv tps vps s).map Prod.fst
      = (epochBody step lossv tps vps' s).map Prod.fst := by
  refine ⟨epochBody_ok step lossv tps vps s htp hvp, ?_⟩
  rw [epochBody_ok step lossv tps vps s htp hvp,
    epochBody_ok step lossv tps vps' s htp hvp']
  rfl

/-- Witness for the C9 theorem on concrete pair sets. -/
theorem val_pass_no_parameter_update_witness :
    (([1] : List ℕ) ≠ [] ∧ ([2] : List ℕ) ≠ [] ∧ ([3] : List ℕ) ≠ []) ∧
    (epochBody (fun u : Unit => u) (fun _ _ => FV.fin 1 : Unit → ℕ → FV)
        [1] [2] ()
      = .ok ((fun u : Unit => u) (),
          FV.divNat (lossTotal (fun _ _ => FV.fin 1 : Unit → ℕ → FV) [1] ())
            ([1] : List ℕ).length,
          FV.divNat (lossTotal (fun _ _ => FV.fin 1 : Unit → ℕ → FV) [2]
            ((fun u : Unit => u) ())) ([2] : List ℕ).length) ∧
    (epochBody (fun u : Unit => u) (fun _ _ => FV.fin 1 : Unit → ℕ → FV)
        [1] [2] ()).map Prod.fst
      = (epochBody (fun u : Unit => u) (fun _ _ => FV.fin 1 : Unit → ℕ → FV)
        [1] [3] ()).map Prod.fst) :=
  ⟨⟨by decide, by decide, by decide⟩,
    val_pass_no_parameter_update _ _ _ _ _ _ (by decide) (by decide) (by decide)⟩

end ProjExercise
